import Mathlib

/-!
Shallow embedding of `src/day08/src/main.rs` (scrambled seven-segment
display decoder) together with proofs about the claims of its
specification.

Modelling conventions:
* `Segment` is `Char`, as in the source (`type Segment = char`).
* `SegmentSet` is `Finset Char`: the source wraps a `HashSet<char>` whose
  equality and hashing are by contents.
* The divergent mapping `DivergentSegmentMapping` is a `HashMap` whose key
  set is always exactly the seven segments `a`..`g` (it is initialised
  with those keys and only ever updated at existing keys), so it is
  modelled as a total function `Fin 7 → Finset Char` through the
  enumeration `segChar`.
* Fallible operations (`anyhow::Result`) are modelled with
  `Except String` / `Option`; error strings keep the source's wording.
* `HashSet`/`HashMap` iteration order is unspecified in the source; every
  loop whose result depends on it is translated to an order-independent
  form and, where the claim needs it, the fold form is related to the
  pointwise form by a lemma.
-/

namespace Day08

abbrev Segment := Char

abbrev SegmentSet := Finset Char

abbrev Digit := Nat

/-- The seven segment characters `a`..`g` (`ALL_SEGMENTS`), enumerated. -/
def segChar (i : Fin 7) : Char := Char.ofNat (97 + i.val)

/-- Index of a character among the seven segments, `none` for any other
character.  Models a `HashMap` lookup keyed by the seven segments. -/
def charIdx (c : Char) : Option (Fin 7) :=
  if h : 97 ≤ c.toNat ∧ c.toNat < 104 then some ⟨c.toNat - 97, by omega⟩ else none

/-- Model of `ALL_SEGMENTS`: the full set of valid segment characters. -/
def allSegments : SegmentSet := {'a', 'b', 'c', 'd', 'e', 'f', 'g'}

/-- Model of `SEGMENT_SET_DIGIT_PAIRS`: canonical pattern/digit pairs in the order
they are listed in the source (ascending pattern length). -/
def segmentSetDigitPairs : List (SegmentSet × Digit) :=
  [ ({'c', 'f'}, 1)
  , ({'a', 'c', 'f'}, 7)
  , ({'b', 'c', 'd', 'f'}, 4)
  , ({'a', 'c', 'd', 'e', 'g'}, 2)
  , ({'a', 'c', 'd', 'f', 'g'}, 3)
  , ({'a', 'b', 'd', 'f', 'g'}, 5)
  , ({'a', 'b', 'c', 'e', 'f', 'g'}, 0)
  , ({'a', 'b', 'd', 'e', 'f', 'g'}, 6)
  , ({'a', 'b', 'c', 'd', 'f', 'g'}, 9)
  , ({'a', 'b', 'c', 'd', 'e', 'f', 'g'}, 8) ]

/-- The ten canonical patterns, in source order. -/
def canonicalPatterns : List SegmentSet := segmentSetDigitPairs.map Prod.fst

/-- Model of `DIGITS_BY_SEGMENT_SET` lookup: digit of a canonical pattern.  The
`HashMap` is collected from `SEGMENT_SET_DIGIT_PAIRS` (distinct keys), so
lookup is a search of the pair list. -/
def digitsBySegmentSet (s : SegmentSet) : Option Digit :=
  (segmentSetDigitPairs.find? fun p => p.1 = s).map Prod.snd

/-- Model of `SEGMENT_SETS_BY_LENGTH` lookup: canonical patterns of a given length,
in `SEGMENT_SET_DIGIT_PAIRS` order (the source builds the map by pushing
in that order); `none` when the length has no canonical pattern
(a `HashMap::get` miss). -/
def segmentSetsByLength (n : Nat) : Option (List SegmentSet) :=
  match segmentSetDigitPairs.filterMap
      (fun p => if p.1.card = n then some p.1 else none) with
  | [] => none
  | l => some l

/-- The divergent segment mapping: candidate canonical segments for each
of the seven real segments. -/
abbrev Dsm := Fin 7 → SegmentSet

/-- A converged mapping (`SegmentMapping` restricted to its seven keys). -/
abbrev Mapping := Fin 7 → Char

/-- Initial divergent mapping: every real segment may be any segment. -/
def initDsm : Dsm := fun _ => allSegments

/-- Model of `Decoder::is_valid`: no candidate set is empty, and no singleton
candidate set is held by more than one real segment. -/
def isValid (d : Dsm) : Bool :=
  decide (∀ i : Fin 7, d i ≠ ∅ ∧
    ((d i).card = 1 → (Finset.univ.filter fun j => d j = d i).card ≤ 1))

/-- The trial narrowing: every real segment present in the sample has its
candidate set intersected with the canonical pattern `q`. -/
def trialNarrow (q : SegmentSet) (sample : SegmentSet) (d : Dsm) : Dsm :=
  fun i => if segChar i ∈ sample then q ∩ d i else d i

/-- One trial (the inner loop of `Decoder::build`): the source iterates
the sample's `HashSet` (unspecified order), updating each present key
once by intersection, and aborts with `invalid segment` when a sample
character is not a key of the mapping, i.e. not one of `a`..`g`.  Each
key is read and written exactly once, so the loop's net effect is the
pointwise `trialNarrow` when every character is valid, and failure
otherwise. -/
def trialStep (q : SegmentSet) (sample : SegmentSet) (d : Dsm) : Option Dsm :=
  if sample ⊆ allSegments then some (trialNarrow q sample d) else none

/-- Model of `Decoder::try_converge`: succeeds when every candidate set is a
singleton, returning the mapping that picks each set's element. -/
def tryConverge (d : Dsm) : Option Mapping :=
  if h : ∀ i, (d i).card = 1 then
    some fun i => (d i).min' (Finset.card_pos.mp (by rw [h i]; norm_num))
  else none

/-- The semi-converged candidate sets of `Decoder::reduce_once`: sets `S`
currently held by exactly `|S|` real segments. -/
def semiConverged (d : Dsm) : Finset SegmentSet :=
  (Finset.univ.image d).filter
    fun s => (Finset.univ.filter fun j => d j = s).card = s.card

/-- Model of `Decoder::reduce_once`: subtract every semi-converged set from each
candidate set that is not itself semi-converged.  Subtracting the sets
one at a time (the source's inner loop) equals subtracting their union,
so the unspecified `HashSet` iteration order is immaterial. -/
def reduceOnce (d : Dsm) : Dsm :=
  fun i =>
    if d i ∈ semiConverged d then d i
    else d i \ (semiConverged d).sup id

/-- Total number of candidates, the termination measure of `reduce`. -/
def dsmSize (d : Dsm) : Nat := ∑ i, (d i).card

/-- Fuel-indexed iteration of `reduce_once` until a sweep changes
nothing. -/
def reduceFuel : Nat → Dsm → Dsm
  | 0, d => d
  | n + 1, d =>
    let d' := reduceOnce d
    if d' = d then d else reduceFuel n d'

/-- Model of `Decoder::reduce`: iterate `reduce_once` until a full sweep changes
nothing.  Candidate sets only shrink, so `dsmSize d + 1` sweeps always
suffice (proved below), making this total function agree with the
source's `while` loop. -/
def reduce (d : Dsm) : Dsm := reduceFuel (dsmSize d + 1) d

/-- The candidate loop of `Decoder::build`: try canonical patterns in
order, adopt the first valid narrowing; when no trial validates the
mapping is left unchanged.  A sample character outside the mapping's keys
aborts the whole build (`?` on the lookup inside the first trial). -/
def tryCandidates (cands : List SegmentSet) (sample : SegmentSet) (d : Dsm) :
    Except String Dsm :=
  match cands with
  | [] => .ok d
  | q :: rest =>
    match trialStep q sample d with
    | none => .error "invalid segment"
    | some d' => if isValid d' then .ok d' else tryCandidates rest sample d

/-- Processing of one sample in `Decoder::build`, before reduction. -/
def buildStep (d : Dsm) (sample : SegmentSet) : Except String Dsm :=
  match segmentSetsByLength sample.card with
  | none => .error "invalid pattern"
  | some cands => tryCandidates cands sample d

/-- One iteration of the main loop of `Decoder::build`: process the
sample, reduce, and either converge, fail, or continue with the new
state. -/
def buildLoopBody (d : Dsm) (sample : SegmentSet)
    (cont : Dsm → Except String Mapping) : Except String Mapping :=
  match buildStep d sample with
  | .error e => .error e
  | .ok d1 =>
    let d2 := reduce d1
    match tryConverge d2 with
    | some m => .ok m
    | none => cont d2

/-- The main loop of `Decoder::build` over the length-sorted samples. -/
def buildLoop : List SegmentSet → Dsm → Except String Mapping
  | [], _ => .error "could not converge signal patterns"
  | sample :: rest, d => buildLoopBody d sample (buildLoop rest)

/-- Insert a sample into a length-sorted list, after samples of the same
length. -/
def insertByLen (x : SegmentSet) : List SegmentSet → List SegmentSet
  | [] => [x]
  | y :: ys => if y.card ≤ x.card then y :: insertByLen x ys else x :: y :: ys

/-- Model of `sort_unstable_by_key(|ss| ss.len())`: sort samples by ascending
length (insertion sort; the source's sort is unstable, so any
length-ascending arrangement is a faithful model). -/
def sortByLen (l : List SegmentSet) : List SegmentSet :=
  l.foldl (fun acc x => insertByLen x acc) []

/-- Model of `Decoder::build`. -/
def build (samples : List SegmentSet) : Except String Mapping :=
  buildLoop (sortByLen samples) initDsm

/-- The converged mapping as a function on characters (only ever applied
to the seven segment characters). -/
def mChar (m : Mapping) (c : Char) : Char :=
  match charIdx c with
  | some i => m i
  | none => c

/-- Decoded segment set of `Decoder::decode`: the source iterates the
encoded set (unspecified `HashSet` order), inserting each segment's
mapped value, and aborts with `invalid segment` when a character is not
a key of the mapping, i.e. not one of `a`..`g`.  The net effect is the
image under the mapping when every character is valid, and failure
otherwise. -/
def decodeSet (m : Mapping) (enc : SegmentSet) : Option SegmentSet :=
  if enc ⊆ allSegments then some (enc.image (mChar m)) else none

/-- Model of `Decoder::decode`. -/
def decode (m : Mapping) (enc : SegmentSet) : Except String Digit :=
  match decodeSet m enc with
  | none => .error "invalid segment"
  | some dec =>
    match digitsBySegmentSet dec with
    | none => .error "could not decode pattern"
    | some dg => .ok dg

/-! ## Parsing and the two parts -/

/-- Model of the `Entry` struct: one puzzle line. -/
structure Entry where
  samples : List SegmentSet
  outputs : List SegmentSet
deriving DecidableEq

/-- Model of `SegmentSet::from_str`: collect the characters, never failing. -/
def SegmentSet.fromStr (l : List Char) : SegmentSet := l.toFinset

/-- Model of `str::split_once`: split at the first occurrence of `sep`. -/
def splitOnceList (sep : List Char) : List Char → Option (List Char × List Char)
  | [] => none
  | c :: cs =>
    if sep.isPrefixOf (c :: cs) then some ([], (c :: cs).drop sep.length)
    else (splitOnceList sep cs).map fun p => (c :: p.1, p.2)

/-- Model of `str::split(' ')`. -/
def splitOnSpace : List Char → List (List Char)
  | [] => [[]]
  | c :: cs =>
    if c = ' ' then [] :: splitOnSpace cs
    else
      match splitOnSpace cs with
      | [] => [[c]]
      | w :: ws => (c :: w) :: ws

/-- Model of `str::split_terminator(' ')`: like `split`, dropping a final empty
piece. -/
def splitTerminator (l : List Char) : List (List Char) :=
  let r := splitOnSpace l
  if r.getLast? = some [] then r.dropLast else r

/-- The separator between sample and output patterns. -/
def sepList : List Char := [' ', '|', ' ']

/-- Model of `Entry::from_str`: split at the first `" | "`; each side is split on
spaces into patterns.  Only a missing separator fails. -/
def Entry.fromStr (l : List Char) : Option Entry :=
  (splitOnceList sepList l).map fun p =>
    { samples := (splitTerminator p.1).map SegmentSet.fromStr
      outputs := (splitTerminator p.2).map SegmentSet.fromStr }

/-- Model of `str::split('\n')`. -/
def splitOnNewline : List Char → List (List Char)
  | [] => [[]]
  | c :: cs =>
    if c = '\n' then [] :: splitOnNewline cs
    else
      match splitOnNewline cs with
      | [] => [[c]]
      | w :: ws => (c :: w) :: ws

/-- Strip one trailing `'\r'`, as `str::lines` does on each line. -/
def stripCr (l : List Char) : List Char :=
  if l.getLast? = some '\r' then l.dropLast else l

/-- Model of `str::lines`: split on `'\n'`, dropping a final empty piece;
a trailing `'\r'` is stripped only from a line that was terminated by
`'\n'` (i.e. from a `"\r\n"` ending) — a final line without a newline
keeps its `'\r'`. -/
def linesOf (l : List Char) : List (List Char) :=
  let r := splitOnNewline l
  r.dropLast.map stripCr ++
    (match r.getLast? with
     | some last => if last = [] then [] else [last]
     | none => [])

/-- Model of `read_entries`: parse every line; any failure aborts. -/
def readEntries (input : List Char) : Option (List Entry) :=
  (linesOf input).mapM Entry.fromStr

/-- The digits counted by part 1. -/
def lookingFor : List Digit := [1, 4, 7, 8]

/-- Reduction of a `u32` computation modulo `2^32`.  The source's `u32`
additions and multiplications wrap in release builds (a debug build
would panic at the same operation); composing the per-operation wraps
equals one reduction of the composite expression. -/
def wrap32 (n : Nat) : Nat := n % 4294967296

/-- Reduction of an `i32` computation into the signed 32-bit range,
modelling the source's wrapping `i32` arithmetic. -/
def wrap32i (n : Int) : Int := (n + 2147483648) % 4294967296 - 2147483648

/-- Model of `part1`: count, across all entries, the decoded output digits that
are in `{1, 4, 7, 8}`.  The counter is an `i32` in the source, so each
increment wraps into the signed 32-bit range.  Returns the printed
count. -/
def part1 (entries : List Entry) : Except String Int :=
  entries.foldlM
    (fun count e => do
      let m ← build e.samples
      e.outputs.foldlM
        (fun c p => do
          let d ← decode m p
          pure (if d ∈ lookingFor then wrap32i (c + 1) else c))
        count)
    0

/-- Model of `part2`: sum, across all entries, of the number formed by the
entry's decoded output digits in order.  `output`, `digit` and `sum`
are `u32` in the source, so each step wraps modulo `2^32`.  Returns the
printed sum. -/
def part2 (entries : List Entry) : Except String Nat :=
  entries.foldlM
    (fun sum e => do
      let m ← build e.samples
      let out ← e.outputs.foldlM
        (fun o p => do
          let d ← decode m p
          pure (wrap32 (o * 10 + d)))
        0
      pure (wrap32 (sum + out)))
    0

/-- Model of `main`: parse the input, then run both parts; the pair is the two
printed integers. -/
def mainOutput (input : List Char) : Except String (Int × Nat) := do
  let entries ← match readEntries input with
    | some es => Except.ok es
    | none => Except.error "bad input"
  let c ← part1 entries
  let s ← part2 entries
  pure (c, s)

/-- The carried divergent-mapping states of one `Decoder::build` run: the
post-reduction state after each processed sample (the same recursion as
`buildLoop`, collecting its `d2` values). -/
def carriedStates : List SegmentSet → Dsm → List Dsm
  | [], _ => []
  | sample :: rest, d =>
    match buildStep d sample with
    | .error _ => []
    | .ok d1 =>
      let d2 := reduce d1
      match tryConverge d2 with
      | some _ => [d2]
      | none => d2 :: carriedStates rest d2

instance {ε α : Type} [DecidableEq ε] [DecidableEq α] : DecidableEq (Except ε α) := fun a b =>
  match a, b with
  | .ok x, .ok y => decidable_of_iff (x = y) (by simp)
  | .error x, .error y => decidable_of_iff (x = y) (by simp)
  | .ok _, .error _ => isFalse (by simp)
  | .error _, .ok _ => isFalse (by simp)

/-! ## Basic facts about segments -/

lemma segChar_injective : Function.Injective segChar := by
  intro i j h
  have : ∀ i j : Fin 7, segChar i = segChar j → i = j := by decide
  exact this i j h

lemma charIdx_segChar (i : Fin 7) : charIdx (segChar i) = some i := by
  revert i; decide

lemma allSegments_eq_image : allSegments = Finset.univ.image segChar := by decide

lemma mem_allSegments_iff {c : Char} : c ∈ allSegments ↔ ∃ i, segChar i = c := by
  rw [allSegments_eq_image]
  simp [Finset.mem_image]

lemma charIdx_isSome_of_mem {c : Char} (h : c ∈ allSegments) : (charIdx c).isSome := by
  obtain ⟨i, rfl⟩ := mem_allSegments_iff.mp h
  rw [charIdx_segChar]; rfl

lemma segChar_mem_allSegments (i : Fin 7) : segChar i ∈ allSegments := by
  exact mem_allSegments_iff.mpr ⟨i, rfl⟩

/-! ## Sorting by length -/

lemma insertByLen_perm (x : SegmentSet) (l : List SegmentSet) :
    List.Perm (insertByLen x l) (x :: l) := by
  induction l with
  | nil => rfl
  | cons y ys ih =>
    unfold insertByLen
    by_cases h : y.card ≤ x.card
    · rw [if_pos h]
      exact ((ih.cons y).trans (List.Perm.swap x y ys))
    · rw [if_neg h]

lemma sortByLen_perm (l : List SegmentSet) : List.Perm (sortByLen l) l := by
  suffices h : ∀ acc : List SegmentSet,
      List.Perm (l.foldl (fun acc x => insertByLen x acc) acc) (acc ++ l) by
    simpa using h []
  induction l with
  | nil => intro acc; simp
  | cons x xs ih =>
    intro acc
    simp only [List.foldl_cons]
    refine (ih (insertByLen x acc)).trans ?_
    have h1 : List.Perm (insertByLen x acc ++ xs) ((x :: acc) ++ xs) :=
      (insertByLen_perm x acc).append_right xs
    refine h1.trans ?_
    simp only [List.cons_append]
    exact (List.perm_middle).symm

lemma insertByLen_sorted {x : SegmentSet} {l : List SegmentSet}
    (h : l.Sorted fun u v => u.card ≤ v.card) :
    (insertByLen x l).Sorted fun u v => u.card ≤ v.card := by
  induction l with
  | nil => simp [insertByLen]
  | cons y ys ih =>
    unfold insertByLen
    rw [List.sorted_cons] at h
    by_cases hc : y.card ≤ x.card
    · rw [if_pos hc]
      rw [List.sorted_cons]
      refine ⟨?_, ih h.2⟩
      intro b hb
      have := (insertByLen_perm x ys).mem_iff.mp hb
      rcases List.mem_cons.mp this with rfl | hb'
      · exact hc
      · exact h.1 b hb'
    · rw [if_neg hc]
      rw [List.sorted_cons]
      refine ⟨?_, List.sorted_cons.mpr h⟩
      intro b hb
      rcases List.mem_cons.mp hb with rfl | hb'
      · omega
      · exact le_trans (by omega) (h.1 b hb')

lemma sortByLen_sorted (l : List SegmentSet) :
    (sortByLen l).Sorted fun u v => u.card ≤ v.card := by
  suffices h : ∀ acc : List SegmentSet, (acc.Sorted fun u v => u.card ≤ v.card) →
      (l.foldl (fun acc x => insertByLen x acc) acc).Sorted fun u v => u.card ≤ v.card by
    exact h [] (by simp)
  induction l with
  | nil => intro acc hacc; simpa using hacc
  | cons x xs ih =>
    intro acc hacc
    simp only [List.foldl_cons]
    exact ih _ (insertByLen_sorted hacc)

/-! ## Reduction: monotonicity and fixed point -/

lemma trialNarrow_subset (q s : SegmentSet) (d : Dsm) (i : Fin 7) :
    trialNarrow q s d i ⊆ d i := by
  unfold trialNarrow
  split
  · exact Finset.inter_subset_right
  · exact Finset.Subset.refl _

lemma reduceOnce_subset (d : Dsm) (i : Fin 7) : reduceOnce d i ⊆ d i := by
  unfold reduceOnce
  split
  · exact Finset.Subset.refl _
  · exact Finset.sdiff_subset

lemma dsmSize_lt_of_ne {d : Dsm} (h : reduceOnce d ≠ d) :
    dsmSize (reduceOnce d) < dsmSize d := by
  have hne : ∃ i, reduceOnce d i ≠ d i := by
    by_contra hc
    push_neg at hc
    exact h (funext hc)
  obtain ⟨i, hi⟩ := hne
  unfold dsmSize
  refine Finset.sum_lt_sum (fun j _ => Finset.card_le_card (reduceOnce_subset d j))
    ⟨i, Finset.mem_univ i, ?_⟩
  exact Finset.card_lt_card (lt_of_le_of_ne (reduceOnce_subset d i) hi)

lemma reduceFuel_fix : ∀ {n : Nat} {d : Dsm}, dsmSize d < n →
    reduceOnce (reduceFuel n d) = reduceFuel n d := by
  intro n
  induction n with
  | zero => intro d h; omega
  | succ n ih =>
    intro d h
    rw [reduceFuel]
    split
    · next hd => exact hd
    · next hd => exact ih (by have := dsmSize_lt_of_ne hd; omega)

lemma reduce_fix (d : Dsm) : reduceOnce (reduce d) = reduce d :=
  reduceFuel_fix (by omega)

lemma reduceFuel_eq_iterate : ∀ (n : Nat) (d : Dsm), ∃ k, reduceFuel n d = reduceOnce^[k] d := by
  intro n
  induction n with
  | zero => intro d; exact ⟨0, rfl⟩
  | succ n ih =>
    intro d
    show (∃ k, (let d' := reduceOnce d; if d' = d then d else reduceFuel n d') = _)
    by_cases hd : reduceOnce d = d
    · exact ⟨0, by simp [hd]⟩
    · obtain ⟨k, hk⟩ := ih (reduceOnce d)
      exact ⟨k + 1, by simp [if_neg hd, hk, Function.iterate_succ_apply]⟩

lemma reduce_eq_iterate (d : Dsm) : ∃ k, reduce d = reduceOnce^[k] d :=
  reduceFuel_eq_iterate _ d

lemma reduce_subset (d : Dsm) (i : Fin 7) : reduce d i ⊆ d i := by
  obtain ⟨k, hk⟩ := reduce_eq_iterate d
  rw [hk]
  clear hk
  induction k generalizing d with
  | zero => exact Finset.Subset.refl _
  | succ k ih =>
    rw [Function.iterate_succ_apply]
    exact (ih (reduceOnce d)).trans (reduceOnce_subset d i)

lemma isValid_nonempty {d : Dsm} (h : isValid d = true) (i : Fin 7) : d i ≠ ∅ :=
  ((of_decide_eq_true h) i).1

/-! ## The candidate loop takes the first valid narrowing -/

lemma trialStep_of_subset {s : SegmentSet} (hs : s ⊆ allSegments) (q : SegmentSet) (d : Dsm) :
    trialStep q s d = some (trialNarrow q s d) := by
  unfold trialStep
  rw [if_pos hs]

lemma tryCandidates_eq_find {s : SegmentSet} (hs : s ⊆ allSegments)
    (cands : List SegmentSet) (d : Dsm) :
    tryCandidates cands s d =
      .ok (((cands.find? fun q => isValid (trialNarrow q s d)).map
        fun q => trialNarrow q s d).getD d) := by
  induction cands with
  | nil => rfl
  | cons q rest ih =>
    rw [tryCandidates, trialStep_of_subset hs]
    by_cases hv : isValid (trialNarrow q s d) = true
    · simp [hv, List.find?_cons_of_pos _ hv]
    · rw [List.find?_cons_of_neg _ (by simp [hv])]
      simp only [Bool.not_eq_true] at hv
      simp [hv, ih]

lemma tryCandidates_of_none {s : SegmentSet} (hs : s ⊆ allSegments)
    {cands : List SegmentSet} {d : Dsm}
    (h : ∀ q ∈ cands, isValid (trialNarrow q s d) = false) :
    tryCandidates cands s d = .ok d := by
  rw [tryCandidates_eq_find hs]
  rw [List.find?_eq_none.mpr (by intro q hq; simp [h q hq])]
  rfl

/-! ## Equivariance under a relabelling of the real segments

A bijection `π` of the seven segments acts on patterns by renaming their
characters and on divergent mappings by renaming the keys.  Every stage
of `Decoder::build` commutes with this action, which reduces the
round-trip property for an arbitrary bijection to the concrete run on
the unscrambled canonical patterns. -/

/-- Rename a character along a bijection of the seven segments
(characters outside `a`..`g` are kept). -/
def scrChar (π : Equiv.Perm (Fin 7)) (c : Char) : Char :=
  match charIdx c with
  | some i => segChar (π i)
  | none => c

/-- Apply a bijection of the seven segments to a pattern. -/
def scramble (π : Equiv.Perm (Fin 7)) (s : SegmentSet) : SegmentSet :=
  s.image (scrChar π)

/-- Rename the keys of a divergent mapping along a bijection. -/
def relabel (π : Equiv.Perm (Fin 7)) (d : Dsm) : Dsm := fun i => d (π⁻¹ i)

lemma scrChar_segChar (π : Equiv.Perm (Fin 7)) (i : Fin 7) :
    scrChar π (segChar i) = segChar (π i) := by
  unfold scrChar
  rw [charIdx_segChar]

lemma scramble_subset {s : SegmentSet} (π : Equiv.Perm (Fin 7)) (hs : s ⊆ allSegments) :
    scramble π s ⊆ allSegments := by
  intro c hc
  obtain ⟨a, ha, rfl⟩ := Finset.mem_image.mp hc
  obtain ⟨i, rfl⟩ := mem_allSegments_iff.mp (hs ha)
  rw [scrChar_segChar]
  exact segChar_mem_allSegments _

lemma segChar_mem_scramble {s : SegmentSet} (π : Equiv.Perm (Fin 7))
    (hs : s ⊆ allSegments) (i : Fin 7) :
    segChar i ∈ scramble π s ↔ segChar (π⁻¹ i) ∈ s := by
  constructor
  · intro h
    obtain ⟨a, ha, hra⟩ := Finset.mem_image.mp h
    obtain ⟨j, rfl⟩ := mem_allSegments_iff.mp (hs ha)
    rw [scrChar_segChar] at hra
    have : π j = i := segChar_injective hra
    have : j = π⁻¹ i := by rw [← this, Equiv.Perm.inv_apply_self]
    rwa [← this]
  · intro h
    refine Finset.mem_image.mpr ⟨segChar (π⁻¹ i), h, ?_⟩
    rw [scrChar_segChar, Equiv.Perm.apply_inv_self]

lemma card_scramble {s : SegmentSet} (π : Equiv.Perm (Fin 7)) (hs : s ⊆ allSegments) :
    (scramble π s).card = s.card := by
  refine Finset.card_image_of_injOn ?_
  intro a ha b hb hab
  obtain ⟨i, rfl⟩ := mem_allSegments_iff.mp (hs ha)
  obtain ⟨j, rfl⟩ := mem_allSegments_iff.mp (hs hb)
  rw [scrChar_segChar, scrChar_segChar] at hab
  exact congrArg segChar (π.injective (segChar_injective hab))

lemma relabel_initDsm (π : Equiv.Perm (Fin 7)) : relabel π initDsm = initDsm := rfl

lemma relabel_inj {π : Equiv.Perm (Fin 7)} {d d' : Dsm}
    (h : relabel π d = relabel π d') : d = d' := by
  funext i
  have := congrFun h (π i)
  simpa [relabel] using this

/-- Filtering `Fin 7` through a permutation preserves the count. -/
lemma card_filter_perm (π : Equiv.Perm (Fin 7)) (p : Fin 7 → Prop) [DecidablePred p] :
    (Finset.univ.filter fun j => p (π⁻¹ j)).card = (Finset.univ.filter p).card := by
  refine Finset.card_bij' (fun j _ => π⁻¹ j) (fun i _ => π i) ?_ ?_ ?_ ?_
  · intro j hj
    simp only [Finset.mem_filter, Finset.mem_univ, true_and] at hj ⊢
    exact hj
  · intro i hi
    simp only [Finset.mem_filter, Finset.mem_univ, true_and] at hi ⊢
    simpa using hi
  · intro j _
    simp
  · intro i _
    simp

lemma image_relabel (π : Equiv.Perm (Fin 7)) (d : Dsm) :
    Finset.univ.image (relabel π d) = Finset.univ.image d := by
  ext s
  simp only [Finset.mem_image, Finset.mem_univ, true_and, relabel]
  constructor
  · rintro ⟨j, rfl⟩; exact ⟨π⁻¹ j, rfl⟩
  · rintro ⟨i, rfl⟩; exact ⟨π i, by rw [Equiv.Perm.inv_apply_self]⟩

lemma semiConverged_relabel (π : Equiv.Perm (Fin 7)) (d : Dsm) :
    semiConverged (relabel π d) = semiConverged d := by
  unfold semiConverged
  rw [image_relabel]
  refine Finset.filter_congr ?_
  intro s _
  constructor
  · intro h
    rw [← h]
    exact (card_filter_perm π (fun j => d j = s)).symm
  · intro h
    rw [← h]
    exact card_filter_perm π (fun j => d j = s)

lemma isValid_relabel (π : Equiv.Perm (Fin 7)) (d : Dsm) :
    isValid (relabel π d) = isValid d := by
  unfold isValid
  rw [decide_eq_decide]
  constructor
  · intro h i
    have := h (π i)
    simp only [relabel, Equiv.Perm.inv_apply_self] at this
    refine ⟨this.1, fun hc => ?_⟩
    have h2 := this.2 hc
    calc (Finset.univ.filter fun j => d j = d i).card
        = (Finset.univ.filter fun j => d (π⁻¹ j) = d i).card :=
          (card_filter_perm π (fun j => d j = d i)).symm
      _ ≤ 1 := h2
  · intro h i
    have := h (π⁻¹ i)
    refine ⟨this.1, fun hc => ?_⟩
    have h2 := this.2 hc
    calc (Finset.univ.filter fun j => relabel π d j = relabel π d i).card
        = (Finset.univ.filter fun j => d j = d (π⁻¹ i)).card :=
          card_filter_perm π (fun j => d j = d (π⁻¹ i))
      _ ≤ 1 := h2

lemma reduceOnce_relabel (π : Equiv.Perm (Fin 7)) (d : Dsm) :
    reduceOnce (relabel π d) = relabel π (reduceOnce d) := by
  funext i
  show (if relabel π d i ∈ semiConverged (relabel π d) then relabel π d i
    else relabel π d i \ (semiConverged (relabel π d)).sup id) = reduceOnce d (π⁻¹ i)
  rw [semiConverged_relabel]
  rfl

lemma dsmSize_relabel (π : Equiv.Perm (Fin 7)) (d : Dsm) :
    dsmSize (relabel π d) = dsmSize d :=
  Equiv.sum_comp (π⁻¹ : Equiv.Perm (Fin 7)) (fun j => (d j).card)

lemma reduceFuel_relabel (π : Equiv.Perm (Fin 7)) :
    ∀ (n : Nat) (d : Dsm), reduceFuel n (relabel π d) = relabel π (reduceFuel n d) := by
  intro n
  induction n with
  | zero => intro d; rfl
  | succ n ih =>
    intro d
    rw [reduceFuel, reduceFuel]
    simp only [reduceOnce_relabel]
    by_cases hd : reduceOnce d = d
    · rw [if_pos hd, if_pos (by rw [hd])]
    · rw [if_neg hd, if_neg (fun hc => hd (relabel_inj hc)), ih]

lemma reduce_relabel (π : Equiv.Perm (Fin 7)) (d : Dsm) :
    reduce (relabel π d) = relabel π (reduce d) := by
  rw [reduce, reduce, dsmSize_relabel, reduceFuel_relabel]

lemma trialNarrow_scramble (π : Equiv.Perm (Fin 7)) {s : SegmentSet}
    (hs : s ⊆ allSegments) (q : SegmentSet) (d : Dsm) :
    trialNarrow q (scramble π s) (relabel π d) = relabel π (trialNarrow q s d) := by
  funext i
  show (if segChar i ∈ scramble π s then q ∩ relabel π d i else relabel π d i)
    = trialNarrow q s d (π⁻¹ i)
  by_cases hm : segChar (π⁻¹ i) ∈ s
  · rw [if_pos ((segChar_mem_scramble π hs i).mpr hm), trialNarrow, if_pos hm]
    rfl
  · rw [if_neg (fun hc => hm ((segChar_mem_scramble π hs i).mp hc)), trialNarrow, if_neg hm]
    rfl

lemma tryCandidates_scramble (π : Equiv.Perm (Fin 7)) {s : SegmentSet}
    (hs : s ⊆ allSegments) (cands : List SegmentSet) (d : Dsm) :
    tryCandidates cands (scramble π s) (relabel π d)
      = (tryCandidates cands s d).map (relabel π) := by
  induction cands with
  | nil => rfl
  | cons q rest ih =>
    rw [tryCandidates, tryCandidates, trialStep_of_subset (scramble_subset π hs),
      trialStep_of_subset hs, trialNarrow_scramble π hs]
    dsimp only
    rw [isValid_relabel]
    by_cases hv : isValid (trialNarrow q s d) = true
    · rw [if_pos hv, if_pos hv]
      rfl
    · rw [if_neg hv, if_neg hv]
      exact ih

lemma buildStep_scramble (π : Equiv.Perm (Fin 7)) {s : SegmentSet}
    (hs : s ⊆ allSegments) (d : Dsm) :
    buildStep (relabel π d) (scramble π s) = (buildStep d s).map (relabel π) := by
  unfold buildStep
  rw [card_scramble π hs]
  cases segmentSetsByLength s.card with
  | none => rfl
  | some cands => exact tryCandidates_scramble π hs cands d

lemma tryConverge_relabel (π : Equiv.Perm (Fin 7)) (d : Dsm) :
    tryConverge (relabel π d) = (tryConverge d).map (fun m i => m (π⁻¹ i)) := by
  unfold tryConverge
  by_cases h : ∀ i, (d i).card = 1
  · rw [dif_pos (show ∀ i, (relabel π d i).card = 1 from fun i => h (π⁻¹ i)), dif_pos h]
    rfl
  · rw [dif_neg (show ¬ ∀ i, (relabel π d i).card = 1 from
        fun hc => h fun i => by simpa [relabel] using hc (π i)), dif_neg h]
    rfl

lemma buildLoop_cons_error {d : Dsm} {s : SegmentSet} {e : String}
    (rest : List SegmentSet) (h : buildStep d s = .error e) :
    buildLoop (s :: rest) d = .error e := by
  rw [buildLoop, buildLoopBody, h]

lemma buildLoop_cons_ok {d d1 : Dsm} {s : SegmentSet}
    (rest : List SegmentSet) (h : buildStep d s = .ok d1) :
    buildLoop (s :: rest) d =
      match tryConverge (reduce d1) with
      | some m => .ok m
      | none => buildLoop rest (reduce d1) := by
  rw [buildLoop, buildLoopBody, h]

lemma buildLoop_scramble (π : Equiv.Perm (Fin 7)) :
    ∀ (l : List SegmentSet) (d : Dsm), (∀ s ∈ l, s ⊆ allSegments) →
      buildLoop (l.map (scramble π)) (relabel π d)
        = (buildLoop l d).map (fun m i => m (π⁻¹ i)) := by
  intro l
  induction l with
  | nil => intro d _; rfl
  | cons s rest ih =>
    intro d hl
    have hs : s ⊆ allSegments := hl s (by simp)
    rw [List.map_cons]
    cases hb : buildStep d s with
    | error e =>
      have hb' : buildStep (relabel π d) (scramble π s) = .error e := by
        rw [buildStep_scramble π hs d, hb]
        rfl
      rw [buildLoop_cons_error _ hb', buildLoop_cons_error _ hb]
      rfl
    | ok d1 =>
      have hb' : buildStep (relabel π d) (scramble π s) = .ok (relabel π d1) := by
        rw [buildStep_scramble π hs d, hb]
        rfl
      rw [buildLoop_cons_ok _ hb', buildLoop_cons_ok _ hb,
        reduce_relabel, tryConverge_relabel]
      cases tryConverge (reduce d1) with
      | some m => rfl
      | none =>
        dsimp only [Option.map]
        exact ih (reduce d1) (fun t ht => hl t (by simp [ht]))

lemma insertByLen_scramble (π : Equiv.Perm (Fin 7)) {x : SegmentSet}
    (hx : x ⊆ allSegments) :
    ∀ (l : List SegmentSet), (∀ s ∈ l, s ⊆ allSegments) →
      insertByLen (scramble π x) (l.map (scramble π)) = (insertByLen x l).map (scramble π) := by
  intro l
  induction l with
  | nil => intro _; rfl
  | cons y ys ih =>
    intro hl
    rw [List.map_cons, insertByLen, insertByLen,
      card_scramble π (hl y (by simp)), card_scramble π hx]
    by_cases hc : y.card ≤ x.card
    · rw [if_pos hc, if_pos hc, ih (fun t ht => hl t (by simp [ht])), List.map_cons]
    · rw [if_neg hc, if_neg hc]
      rfl

lemma sortByLen_scramble (π : Equiv.Perm (Fin 7)) {l : List SegmentSet}
    (hl : ∀ s ∈ l, s ⊆ allSegments) :
    sortByLen (l.map (scramble π)) = (sortByLen l).map (scramble π) := by
  unfold sortByLen
  suffices h : ∀ (l' acc : List SegmentSet), (∀ s ∈ l', s ⊆ allSegments) →
      (∀ s ∈ acc, s ⊆ allSegments) →
      (l'.map (scramble π)).foldl (fun a x => insertByLen x a) (acc.map (scramble π))
        = (l'.foldl (fun a x => insertByLen x a) acc).map (scramble π) by
    exact h l [] hl (by simp)
  intro l'
  induction l' with
  | nil => intro acc _ _; rfl
  | cons x xs ih =>
    intro acc hxs hacc
    rw [List.map_cons, List.foldl_cons, List.foldl_cons,
      insertByLen_scramble π (hxs x (by simp)) acc hacc]
    refine ih (insertByLen x acc) (fun t ht => hxs t (by simp [ht])) ?_
    intro t ht
    rcases List.mem_cons.mp ((insertByLen_perm x acc).mem_iff.mp ht) with rfl | h'
    · exact hxs t (by simp)
    · exact hacc t h'

lemma sortByLen_subset {l : List SegmentSet} (hl : ∀ s ∈ l, s ⊆ allSegments) :
    ∀ s ∈ sortByLen l, s ⊆ allSegments := by
  intro s hs
  exact hl s ((sortByLen_perm l).mem_iff.mp hs)

lemma build_scramble (π : Equiv.Perm (Fin 7)) {l : List SegmentSet}
    (hl : ∀ s ∈ l, s ⊆ allSegments) :
    build (l.map (scramble π)) = (build l).map (fun m i => m (π⁻¹ i)) := by
  rw [build, build, sortByLen_scramble π hl, ← relabel_initDsm π]
  exact buildLoop_scramble π (sortByLen l) initDsm (sortByLen_subset hl)

lemma decode_scramble (π : Equiv.Perm (Fin 7)) {enc : SegmentSet}
    (henc : enc ⊆ allSegments) (m : Mapping) :
    decode (fun i => m (π⁻¹ i)) (scramble π enc) = decode m enc := by
  unfold decode decodeSet
  rw [if_pos (scramble_subset π henc), if_pos henc]
  have himg : (scramble π enc).image (mChar fun i => m (π⁻¹ i)) = enc.image (mChar m) := by
    unfold scramble
    rw [Finset.image_image]
    refine Finset.image_congr ?_
    intro c hc
    obtain ⟨j, rfl⟩ := mem_allSegments_iff.mp (henc hc)
    show mChar (fun i => m (π⁻¹ i)) (scrChar π (segChar j)) = mChar m (segChar j)
    rw [scrChar_segChar]
    unfold mChar
    rw [charIdx_segChar, charIdx_segChar]
    simp
  rw [himg]

/-! ## Concrete base run: the unscrambled canonical patterns -/

lemma canonicalPairs_fst_subset : ∀ p ∈ segmentSetDigitPairs, p.1 ⊆ allSegments := by decide

lemma canonicalPatterns_subset : ∀ s ∈ canonicalPatterns, s ⊆ allSegments := by decide

/-- Building from the unscrambled canonical patterns converges to the
identity mapping. -/
lemma build_canonical : build canonicalPatterns = .ok segChar := by decide

/-- The identity decoder decodes every canonical pattern to its digit. -/
lemma decode_canonical : ∀ p ∈ segmentSetDigitPairs, decode segChar p.1 = .ok p.2 := by decide

lemma digits_perm : List.Perm (segmentSetDigitPairs.map Prod.snd) (List.range 10) := by decide

/-- Claim C1:  For every bijection `π` over the seven segments,
`Decoder::build` succeeds on the ten canonical digit patterns scrambled
by `π`, and `Decoder::decode` maps each scrambled canonical pattern back
to that pattern's digit; the ten digits recovered are exactly `0`..`9`,
each once. -/
theorem claim_C1 (π : Equiv.Perm (Fin 7)) :
    ∃ m, build (canonicalPatterns.map (scramble π)) = .ok m ∧
      (∀ p ∈ segmentSetDigitPairs, decode m (scramble π p.1) = .ok p.2) ∧
      List.Perm (segmentSetDigitPairs.map Prod.snd) (List.range 10) := by
  refine ⟨fun i => segChar (π⁻¹ i), ?_, ?_, digits_perm⟩
  · rw [build_scramble π canonicalPatterns_subset, build_canonical]
    rfl
  · intro p hp
    rw [decode_scramble π (canonicalPairs_fst_subset p hp) segChar]
    exact decode_canonical p hp

/-- Witness for C1 at the concrete bijection swapping segments `a` and
`b`. -/
theorem claim_C1_witness :
    ∃ m, build (canonicalPatterns.map (scramble (Equiv.swap 0 1))) = .ok m ∧
      decode m (scramble (Equiv.swap 0 1) {'c', 'f'}) = .ok 1 := by
  obtain ⟨m, h1, h2, _⟩ := claim_C1 (Equiv.swap 0 1)
  exact ⟨m, h1, h2 ({'c', 'f'}, 1) (by decide)⟩

/-! ## The shape of the candidate loop (C3) and of the reduction (C4) -/

lemma segmentSetsByLength_card {n : Nat} {l : List SegmentSet}
    (h : segmentSetsByLength n = some l) : ∀ q ∈ l, q.card = n := by
  unfold segmentSetsByLength at h
  cases hfm : segmentSetDigitPairs.filterMap
      (fun p => if p.1.card = n then some p.1 else none) with
  | nil => rw [hfm] at h; exact absurd h (by simp)
  | cons a as =>
    rw [hfm] at h
    have hl : l = a :: as := by
      simpa using h.symm
    subst hl
    intro q hq
    rw [← hfm] at hq
    obtain ⟨p, _, hp⟩ := List.mem_filterMap.mp hq
    by_cases hc : p.1.card = n
    · rw [if_pos hc] at hp
      rw [← Option.some_inj.mp hp]
      exact hc
    · rw [if_neg hc] at hp
      exact absurd hp (by simp)

/-- Claim C3:  `Decoder::build` processes the samples in ascending order of
pattern length (a sorted permutation of the input); for each sample the
canonical patterns of the sample's length are tried in turn, a trial
being the per-segment intersection of the sample's segments' candidate
sets with the canonical pattern; and the first trial passing the
validity check is adopted (when none passes, the mapping is kept). -/
theorem claim_C3 :
    (∀ samples, build samples = buildLoop (sortByLen samples) initDsm) ∧
    (∀ l, List.Perm (sortByLen l) l ∧
      (sortByLen l).Sorted fun u v => u.card ≤ v.card) ∧
    (∀ n l, segmentSetsByLength n = some l → ∀ q ∈ l, q.card = n) ∧
    (∀ q s d, s ⊆ allSegments →
      trialStep q s d = some fun i => if segChar i ∈ s then q ∩ d i else d i) ∧
    (∀ cands s d, s ⊆ allSegments →
      tryCandidates cands s d =
        .ok (((cands.find? fun q => isValid (trialNarrow q s d)).map
          fun q => trialNarrow q s d).getD d)) := by
  refine ⟨fun _ => rfl, fun l => ⟨sortByLen_perm l, sortByLen_sorted l⟩,
    fun n l h => segmentSetsByLength_card h, fun q s d hs => trialStep_of_subset hs q d,
    fun cands s d hs => tryCandidates_eq_find hs cands d⟩

/-- Witness for C3 at concrete inputs. -/
theorem claim_C3_witness :
    build canonicalPatterns = buildLoop (sortByLen canonicalPatterns) initDsm ∧
    trialStep {'c', 'f'} {'a', 'b'} initDsm
      = some fun i => if segChar i ∈ ({'a', 'b'} : Finset Char)
          then {'c', 'f'} ∩ initDsm i else initDsm i :=
  ⟨claim_C3.1 canonicalPatterns,
    claim_C3.2.2.2.1 {'c', 'f'} {'a', 'b'} initDsm (by decide)⟩

/-- Claim C4:  After a sample is accepted, `Decoder::reduce` iterates
`reduce_once` to a fixed point; one sweep keeps every semi-converged
candidate set (a set `S` held by exactly `|S|` real segments) and
subtracts the semi-converged sets from every other candidate set. -/
theorem claim_C4 :
    (∀ d s, s ∈ semiConverged d ↔
      (∃ i, d i = s) ∧ (Finset.univ.filter fun j => d j = s).card = s.card) ∧
    (∀ d i, (d i ∈ semiConverged d → reduceOnce d i = d i) ∧
      (d i ∉ semiConverged d →
        reduceOnce d i = d i \ (semiConverged d).sup id)) ∧
    (∀ d, ∃ n, reduce d = reduceOnce^[n] d) ∧
    (∀ d, reduceOnce (reduce d) = reduce d) := by
  refine ⟨?_, ?_, reduce_eq_iterate, reduce_fix⟩
  · intro d s
    unfold semiConverged
    simp only [Finset.mem_filter, Finset.mem_image, Finset.mem_univ, true_and]
  · intro d i
    constructor
    · intro h
      unfold reduceOnce
      rw [if_pos h]
    · intro h
      unfold reduceOnce
      rw [if_neg h]

/-- Witness for C4 at a concrete state. -/
theorem claim_C4_witness :
    (initDsm 0 ∈ semiConverged initDsm ∧ reduceOnce initDsm 0 = initDsm 0) ∧
    reduceOnce (reduce initDsm) = reduce initDsm :=
  ⟨⟨by decide, (claim_C4.2.1 initDsm 0).1 (by decide)⟩, claim_C4.2.2.2 initDsm⟩

/-! ## C7: a sample with no valid trial does not by itself fail the build -/

/-- The ten canonical patterns with an extra sample `{d, e}` inserted:
`{d, e}` admits no valid trial (its only same-length canonical pattern
is `{c, f}`, and intersecting gives empty sets), yet the build still
converges from the remaining samples. -/
def L7 : List SegmentSet :=
  [{'c', 'f'}, {'d', 'e'}, {'a', 'c', 'f'}, {'b', 'c', 'd', 'f'},
    {'a', 'c', 'd', 'e', 'g'}, {'a', 'c', 'd', 'f', 'g'}, {'a', 'b', 'd', 'f', 'g'},
    {'a', 'b', 'c', 'e', 'f', 'g'}, {'a', 'b', 'd', 'e', 'f', 'g'},
    {'a', 'b', 'c', 'd', 'f', 'g'}, {'a', 'b', 'c', 'd', 'e', 'f', 'g'}]

/-- Counterexample to C7: in the build of `L7` the second processed
sample `{d, e}` has no canonical pattern of its length whose trial
narrowing passes the validity check, yet `Decoder::build` succeeds
instead of failing with "could not converge signal patterns". -/
theorem claim_C7_counterexample :
    sortByLen L7 = L7 ∧
    ((carriedStates L7 initDsm).head?.all fun d1 =>
      ((segmentSetsByLength (({'d', 'e'} : Finset Char).card)).getD []).all
        fun q => !(isValid (trialNarrow q {'d', 'e'} d1))) = true ∧
    (build L7).toOption.isSome = true := by decide

/-- Claim C7 (amended):  When no canonical pattern of the sample's length
yields a valid trial narrowing, the sample leaves the divergent mapping
unchanged and the build continues; the error "could not converge signal
patterns" arises only when the samples are exhausted without
convergence. -/
theorem claim_C7 :
    (∀ (s : SegmentSet) (d : Dsm) (cands : List SegmentSet), s ⊆ allSegments →
      (∀ q ∈ cands, isValid (trialNarrow q s d) = false) →
      tryCandidates cands s d = .ok d) ∧
    (∀ d, buildLoop [] d = .error "could not converge signal patterns") :=
  ⟨fun _ _ _ hs h => tryCandidates_of_none hs h, fun _ => rfl⟩

/-- Witness for C7 at a concrete state where the single trial fails. -/
theorem claim_C7_witness :
    tryCandidates [{'c', 'f'}] {'d', 'e'} (fun _ => ({'a'} : Finset Char))
        = .ok (fun _ => ({'a'} : Finset Char)) ∧
    buildLoop [] initDsm = .error "could not converge signal patterns" :=
  ⟨claim_C7.1 {'d', 'e'} (fun _ => ({'a'} : Finset Char)) [{'c', 'f'}]
      (by decide) (by decide),
    claim_C7.2 initDsm⟩

/-! ## C9: candidate sets only shrink, but reduction can empty one -/

/-- A sample list whose build reaches a carried state with an empty
candidate set (found by exhaustive search over reachable states). -/
def L9 : List SegmentSet :=
  [{'a', 'b', 'c'}, {'a', 'd', 'e', 'f'}, {'a', 'b', 'c', 'd', 'g'},
    {'b', 'd', 'e', 'f', 'g'}]

/-- Counterexample to C9's non-emptiness part: the build of `L9` carries
forward a state in which some real segment's candidate set is empty
(the build later fails, but the empty set is carried, not rejected). -/
theorem claim_C9_counterexample :
    (∃ d ∈ carriedStates (sortByLen L9) initDsm, ∃ i, d i = ∅) ∧
    build L9 = .error "could not converge signal patterns" := by decide

/-- Claim C9 (amended):  Candidate sets are monotonically non-growing:
trial narrowings intersect and reduction sweeps subtract, so no step
adds candidates; and in every state passing the validity check every
candidate set is non-empty.  (The reduction, however, can empty a
candidate set of a carried state, as the counterexample shows.) -/
theorem claim_C9 :
    (∀ q s d i, trialNarrow q s d i ⊆ d i) ∧
    (∀ d i, reduceOnce d i ⊆ d i) ∧
    (∀ d i, reduce d i ⊆ d i) ∧
    (∀ d, isValid d = true → ∀ i, d i ≠ ∅) :=
  ⟨trialNarrow_subset, reduceOnce_subset, reduce_subset,
    fun _ h i => isValid_nonempty h i⟩

/-- Witness for C9 at concrete states. -/
theorem claim_C9_witness :
    reduce initDsm 0 ⊆ initDsm 0 ∧ initDsm 0 ≠ ∅ :=
  ⟨claim_C9.2.2.1 initDsm 0, claim_C9.2.2.2 initDsm (by decide) 0⟩

/-! ## Successful decoding folds (shared by C2 and C10) -/

/-- The digit a decoder assigns to a pattern (`0` when decoding fails;
only used where decoding succeeds). -/
def digitOr0 (m : Mapping) (p : SegmentSet) : Digit := (decode m p).toOption.getD 0

lemma ok_bind {α β : Type} (x : α) (g : α → Except String β) :
    (Except.ok x >>= g) = g x := rfl

lemma wrap32i_idem (a : Int) : wrap32i (wrap32i a) = wrap32i a := by
  unfold wrap32i
  omega

lemma wrap32i_add_left (a b : Int) : wrap32i (wrap32i a + b) = wrap32i (a + b) := by
  unfold wrap32i
  omega

lemma wrap32i_zero : wrap32i 0 = 0 := by
  unfold wrap32i
  omega

lemma foldlM_mul10 (m : Mapping) :
    ∀ (outs : List SegmentSet) (a : Nat),
      (∀ p ∈ outs, (decode m p).isOk = true) →
      outs.foldlM (fun o p => do
          let d ← decode m p
          pure (wrap32 (o * 10 + d))) a
        = .ok (outs.foldl (fun o p => wrap32 (o * 10 + digitOr0 m p)) a) := by
  intro outs
  induction outs with
  | nil => intro a _; rfl
  | cons p ps ih =>
    intro a h
    have hp : (decode m p).isOk = true := h p (by simp)
    cases hd : decode m p with
    | error e => rw [hd] at hp; simp [Except.isOk, Except.toBool] at hp
    | ok dv =>
      have hdig : digitOr0 m p = dv := by rw [digitOr0, hd]; rfl
      rw [List.foldlM_cons, List.foldl_cons, hd, ok_bind, pure_bind, hdig]
      exact ih (wrap32 (a * 10 + dv)) (fun p' hp' => h p' (by simp [hp']))

lemma foldlM_count (m : Mapping) :
    ∀ (outs : List SegmentSet) (c : Int), wrap32i c = c →
      (∀ p ∈ outs, (decode m p).isOk = true) →
      outs.foldlM (fun c p => do
          let d ← decode m p
          pure (if d ∈ lookingFor then wrap32i (c + 1) else c)) c
        = .ok (wrap32i (c + ((outs.map (digitOr0 m)).filter (· ∈ lookingFor)).length)) := by
  intro outs
  induction outs with
  | nil =>
    intro c hc _
    show Except.ok c = _
    simp [hc]
  | cons p ps ih =>
    intro c hc h
    have hp : (decode m p).isOk = true := h p (by simp)
    cases hd : decode m p with
    | error e => rw [hd] at hp; simp [Except.isOk, Except.toBool] at hp
    | ok dv =>
      have hdig : digitOr0 m p = dv := by rw [digitOr0, hd]; rfl
      rw [List.foldlM_cons, hd, ok_bind, pure_bind, List.map_cons, hdig]
      by_cases hin : dv ∈ lookingFor
      · rw [if_pos hin, List.filter_cons_of_pos (by simpa using hin),
          ih (wrap32i (c + 1)) (wrap32i_idem _) (fun p' hp' => h p' (by simp [hp'])),
          wrap32i_add_left, List.length_cons]
        refine congrArg Except.ok (congrArg wrap32i ?_)
        push_cast
        ring
      · rw [if_neg hin, List.filter_cons_of_neg (by simpa using hin),
          ih c hc (fun p' hp' => h p' (by simp [hp']))]

/-! ## C8 and C10: entry parsing -/

lemma isPrefixOf_eq_true {l1 l2 : List Char} : l1.isPrefixOf l2 = true ↔ l1 <+: l2 :=
  List.isPrefixOf_iff_prefix

lemma prefix_toInfix {l1 l2 : List Char} (h : l1 <+: l2) : l1 <:+: l2 :=
  List.IsPrefix.isInfix h

lemma splitOnceList_eq_none_iff {sep : List Char} (hsep : sep ≠ []) :
    ∀ l, splitOnceList sep l = none ↔ ¬ sep <:+: l := by
  intro l
  induction l with
  | nil =>
    constructor
    · intro _ hc
      exact hsep (List.eq_nil_of_sublist_nil hc.sublist)
    · intro _
      rfl
  | cons c cs ih =>
    rw [splitOnceList]
    by_cases hp : sep.isPrefixOf (c :: cs)
    · rw [if_pos hp]
      constructor
      · intro hcon
        exact absurd hcon (Option.some_ne_none _)
      · intro hcon
        exact absurd (prefix_toInfix (isPrefixOf_eq_true.mp hp)) hcon
    · rw [if_neg hp]
      rw [Option.map_eq_none', ih, List.infix_cons_iff]
      constructor
      · intro h hc
        rcases hc with hc | hc
        · exact hp (isPrefixOf_eq_true.mpr hc)
        · exact h hc
      · intro h hc
        exact h (Or.inr hc)

lemma sepList_ne_nil : sepList ≠ [] := by decide

lemma fromStr_eq_none_iff (l : List Char) :
    Entry.fromStr l = none ↔ ¬ sepList <:+: l := by
  unfold Entry.fromStr
  rw [Option.map_eq_none']
  exact splitOnceList_eq_none_iff sepList_ne_nil l

/-- Counterexample to C8: a line whose pattern contains `z`, a character
outside the segment alphabet `a`..`g`, is parsed successfully — the
parser checks only for the separator. -/
theorem claim_C8_counterexample :
    Entry.fromStr ['a', 'z', ' ', '|', ' ', 'b']
        = some { samples := [{'a', 'z'}], outputs := [{'b'}] } ∧
    'z' ∉ allSegments := by
  constructor
  · rfl
  · decide

/-- Claim C8 (amended):  Parsing a line into an `Entry` fails exactly when
the line lacks the separator `" | "`; a pattern character outside the
segment alphabet `a`..`g` is accepted by the parser. -/
theorem claim_C8 :
    (∀ l, Entry.fromStr l = none ↔ ¬ sepList <:+: l) ∧
    Entry.fromStr ['a', 'z', ' ', '|', ' ', 'b']
      = some { samples := [{'a', 'z'}], outputs := [{'b'}] } :=
  ⟨fromStr_eq_none_iff, rfl⟩

/-- Witness for C8 at a concrete separator-free line. -/
theorem claim_C8_witness :
    Entry.fromStr ['a', 'b'] = none ∧ ¬ sepList <:+: ['a', 'b'] :=
  ⟨(claim_C8.1 ['a', 'b']).mpr (by decide), by decide⟩

lemma splitOnceList_boundary {l2 : List Char} :
    ∀ l1 : List Char, '|' ∉ l1 →
      splitOnceList sepList (l1 ++ sepList ++ l2) = some (l1, l2) := by
  intro l1
  induction l1 with
  | nil =>
    intro _
    rw [List.nil_append]
    show splitOnceList sepList (' ' :: '|' :: ' ' :: l2) = some ([], l2)
    rw [splitOnceList, if_pos (by simp [List.isPrefixOf])]
    rfl
  | cons c cs ih =>
    intro h
    have hc : sepList.isPrefixOf (c :: (cs ++ sepList ++ l2)) = false := by
      cases cs with
      | nil =>
        show sepList.isPrefixOf (c :: ' ' :: '|' :: ' ' :: l2) = false
        simp [List.isPrefixOf]
      | cons c' cs' =>
        have h' : c' ≠ '|' := fun hq => h (by simp [hq])
        have hb : ('|' == c') = false := beq_eq_false_iff_ne.mpr (Ne.symm h')
        show sepList.isPrefixOf (c :: c' :: (cs' ++ sepList ++ l2)) = false
        simp [List.isPrefixOf, hb]
    rw [List.cons_append, List.cons_append, splitOnceList,
      if_neg (by rw [hc]; simp),
      ih (fun hm => h (List.mem_cons_of_mem c hm))]
    rfl

/-- Claim C10:  Entry parsing imposes no count constraints: any line with
the separator parses, with however many sample and output patterns are
present (including none); and part 2 forms each entry's number from
however many output patterns there are, by repeated
`output = output * 10 + digit` in the source's wrapping `u32`
arithmetic. -/
theorem claim_C10 :
    (∀ l1 l2 : List Char, '|' ∉ l1 →
      Entry.fromStr (l1 ++ sepList ++ l2) = some
        { samples := (splitTerminator l1).map SegmentSet.fromStr
          outputs := (splitTerminator l2).map SegmentSet.fromStr }) ∧
    Entry.fromStr sepList = some { samples := [], outputs := [] } ∧
    (∀ (m : Mapping) (outs : List SegmentSet),
      (∀ p ∈ outs, (decode m p).isOk = true) →
      outs.foldlM (fun o p => do
          let d ← decode m p
          pure (wrap32 (o * 10 + d))) 0
        = .ok (outs.foldl (fun o p => wrap32 (o * 10 + digitOr0 m p)) 0)) := by
  refine ⟨?_, by decide, fun m outs h => foldlM_mul10 m outs 0 h⟩
  intro l1 l2 h
  unfold Entry.fromStr
  rw [splitOnceList_boundary l1 h]
  rfl

/-! ## C2: the two printed integers -/

/-- The digits an entry's outputs decode to (spec-side description; under
the hypotheses of C2 it is the run's actual digit list). -/
def entryDigits (e : Entry) : List Digit :=
  match build e.samples with
  | .ok m => e.outputs.map (digitOr0 m)
  | .error _ => []

lemma entryDigits_eq {e : Entry} {m : Mapping} (hm : build e.samples = .ok m) :
    entryDigits e = e.outputs.map (digitOr0 m) := by
  unfold entryDigits
  rw [hm]

lemma part1_ok : ∀ (entries : List Entry),
    (∀ e ∈ entries, ∃ m, build e.samples = .ok m ∧
      ∀ p ∈ e.outputs, (decode m p).isOk = true) →
    part1 entries
      = .ok (wrap32i (((entries.map entryDigits).flatten.filter
          (· ∈ lookingFor)).length)) := by
  suffices hgen : ∀ (entries : List Entry) (c : Int), wrap32i c = c →
      (∀ e ∈ entries, ∃ m, build e.samples = .ok m ∧
        ∀ p ∈ e.outputs, (decode m p).isOk = true) →
      entries.foldlM (fun count e => do
          let m ← build e.samples
          e.outputs.foldlM (fun c p => do
              let d ← decode m p
              pure (if d ∈ lookingFor then wrap32i (c + 1) else c)) count) c
        = .ok (wrap32i (c + ((entries.map entryDigits).flatten.filter
            (· ∈ lookingFor)).length)) by
    intro entries h
    have := hgen entries 0 wrap32i_zero h
    rw [part1, this, zero_add]
  intro entries
  induction entries with
  | nil =>
    intro c hc _
    show Except.ok c = _
    simp [hc]
  | cons e es ih =>
    intro c hc h
    obtain ⟨m, hm, hdec⟩ := h e (by simp)
    rw [List.foldlM_cons, hm, ok_bind, foldlM_count m e.outputs c hc hdec,
      ok_bind, ih _ (wrap32i_idem _) (fun e' he' => h e' (by simp [he'])),
      List.map_cons, List.flatten_cons, List.filter_append, List.length_append,
      entryDigits_eq hm, wrap32i_add_left]
    refine congrArg Except.ok (congrArg wrap32i ?_)
    push_cast
    ring

/-- The number part 2 forms from an entry's decoded output digits, in
wrapping 32-bit arithmetic. -/
def entryNumber (e : Entry) : Nat :=
  (entryDigits e).foldl (fun a d => wrap32 (a * 10 + d)) 0

lemma part2_ok : ∀ (entries : List Entry),
    (∀ e ∈ entries, ∃ m, build e.samples = .ok m ∧
      ∀ p ∈ e.outputs, (decode m p).isOk = true) →
    part2 entries
      = .ok (entries.foldl (fun s e => wrap32 (s + entryNumber e)) 0) := by
  suffices hgen : ∀ (entries : List Entry) (s : Nat),
      (∀ e ∈ entries, ∃ m, build e.samples = .ok m ∧
        ∀ p ∈ e.outputs, (decode m p).isOk = true) →
      entries.foldlM (fun sum e => do
          let m ← build e.samples
          let out ← e.outputs.foldlM (fun o p => do
              let d ← decode m p
              pure (wrap32 (o * 10 + d))) 0
          pure (wrap32 (sum + out))) s
        = .ok (entries.foldl (fun s e => wrap32 (s + entryNumber e)) s) by
    intro entries h
    rw [part2, hgen entries 0 h]
  intro entries
  induction entries with
  | nil => intro s _; rfl
  | cons e es ih =>
    intro s h
    obtain ⟨m, hm, hdec⟩ := h e (by simp)
    have hX : e.outputs.foldl (fun o p => wrap32 (o * 10 + digitOr0 m p)) 0
        = entryNumber e := by
      rw [entryNumber, entryDigits_eq hm, List.foldl_map]
    rw [List.foldlM_cons, hm, ok_bind, foldlM_mul10 m e.outputs 0 hdec,
      ok_bind, pure_bind, hX, List.foldl_cons]
    exact ih _ (fun e' he' => h e' (by simp [he']))

/-- Claim C2 (amended):  For every input whose every entry parses, whose
every entry's samples build a decoder, and whose every output pattern
decodes, the program prints exactly two integers, computed in the
source's 32-bit arithmetic: the count (a wrapping `i32`) of decoded
output digits lying in `{1, 4, 7, 8}`, and the wrapping `u32` sum over
entries of the number formed from the entry's decoded output digits in
order by `output = output * 10 + digit` modulo `2^32`. -/
theorem claim_C2 (input : List Char) (entries : List Entry)
    (hp : readEntries input = some entries)
    (h : ∀ e ∈ entries, ∃ m, build e.samples = .ok m ∧
      ∀ p ∈ e.outputs, (decode m p).isOk = true) :
    mainOutput input = .ok
      (wrap32i (((entries.map entryDigits).flatten.filter
          (· ∈ lookingFor)).length),
        entries.foldl (fun s e => wrap32 (s + entryNumber e)) 0) := by
  rw [mainOutput, hp]
  show (Except.ok entries >>= _) = _
  rw [ok_bind]
  dsimp only
  rw [part1_ok entries h, ok_bind, part2_ok entries h, ok_bind]
  rfl

/-- An input on which the original C2 fails: one entry with ten
decodable output patterns `bcdf`.  The exact base-10 number of its
digits is `4444444444`, which exceeds `u32::MAX`. -/
def overflowInput : List Char :=
  ("cf acf bcdf acdeg acdfg abdfg abcefg abdefg abcdfg abcdefg | bcdf bcdf bcdf bcdf bcdf bcdf bcdf bcdf bcdf bcdf").toList

set_option maxRecDepth 10000 in
/-- Counterexample to C2 as originally stated: on `overflowInput` the
entry's decoded digits are ten `4`s, whose exact base-10 number is
`4444444444`, but the program's `u32` fold wraps and it prints
`149477148 = 4444444444 - 2^32` instead of that sum. -/
theorem claim_C2_counterexample :
    (readEntries overflowInput).map (fun es => es.map entryDigits)
        = some [List.replicate 10 4] ∧
    mainOutput overflowInput = .ok (10, 149477148) ∧
    (List.replicate 10 (4 : Nat)).foldl (fun a d => a * 10 + d) 0 = 4444444444 ∧
    (149477148 : Nat) ≠ 4444444444 := by decide

set_option maxRecDepth 10000 in
/-- Witness for C2 on a concrete one-entry input. -/
theorem claim_C2_witness :
    mainOutput ("cf acf bcdf acdeg acdfg abdfg abcefg abdefg abcdfg abcdefg | cf abcdefg").toList
      = .ok (2, 18) := by
  refine (claim_C2 _
    [{ samples := canonicalPatterns, outputs := [{'c', 'f'}, allSegments] }]
    (by decide) ?_).trans (by decide)
  intro e he
  rw [List.mem_singleton] at he
  subst he
  exact ⟨segChar, build_canonical, by decide⟩

/-- Witness for C10: a parsed line with two output patterns and the
two-digit number the part 2 loop forms from them. -/
theorem claim_C10_witness :
    Entry.fromStr (['a', 'b'] ++ sepList ++ ['c', 'f', ' ', 'a', 'c', 'f'])
        = some { samples := [{'a', 'b'}], outputs := [{'c', 'f'}, {'a', 'c', 'f'}] } ∧
    ([{'c', 'f'}, {'a', 'c', 'f'}] : List SegmentSet).foldlM (fun o p => do
        let d ← decode segChar p
        pure (wrap32 (o * 10 + d))) 0 = .ok 17 := by
  constructor
  · exact (claim_C10.1 ['a', 'b'] ['c', 'f', ' ', 'a', 'c', 'f'] (by decide)).trans
      (by decide)
  · exact (claim_C10.2.2 segChar [{'c', 'f'}, {'a', 'c', 'f'}] (by decide)).trans
      (by decide)

end Day08
